import Mathlib

/-!
Verification of the warm-restart reconciliation helper
(`warmrestart/warmRestartHelper.cpp`).

The embedding below translates the helper's data model and operations into
Lean. Machine state (`m_state`, `m_enabled`, `m_restorationVector`,
`m_refreshMap`) becomes an explicit `Helper` record; calls into the external
synchronized-table sink become an explicit list of emitted `SinkOp`s; the two
C assertions (state precondition of `reconcile`, field-lookup assertion of
`compareAllFV`) become `Option`-valued results where `none` is an assertion
fault.
-/

namespace WarmRestart

/-- The three warm-restart FSM states used by the helper
(`WarmStart::INITIALIZED / RESTORED / RECONCILED`). -/
inductive WarmStartState where
  | INITIALIZED
  | RESTORED
  | RECONCILED
deriving DecidableEq

/-- A field-value pair, as in `swss::FieldValueTuple`. -/
abbrev FieldValueTuple := String × String

/-- `swss::KeyOpFieldsValuesTuple`: key, operation string and field-values. -/
structure KeyOpFieldsValuesTuple where
  key : String
  op : String
  fvs : List FieldValueTuple
deriving DecidableEq

/-- The `DEL_COMMAND` operation string. -/
def DEL_COMMAND : String := "DEL"

/-- The `SET_COMMAND` operation string. -/
def SET_COMMAND : String := "SET"

/-- A call issued to the synchronized-table sink (`m_syncTable`). -/
inductive SinkOp where
  | set (key : String) (fvs : List FieldValueTuple)
  | del (key : String)
deriving DecidableEq

/-- Modelled from the spec: the external `tokenize(s, ',')` utility
(sonic-swss-common, not part of this repository's sources) which turns a
value string into its comma-separated token list.  We split a character list
at every comma, keeping empty tokens. -/
def splitComma : List Char → List (List Char)
  | [] => [[]]
  | c :: cs =>
    if c = ',' then [] :: splitComma cs
    else
      match splitComma cs with
      | [] => [[c]]
      | t :: ts => (c :: t) :: ts

/-- Token list of a value string (see `splitComma`). -/
def tokenize (s : String) : List (List Char) := splitComma s.data

/-- `std::sort` on the token list, modelled by insertion sort over the
lexicographic order on character lists. -/
def sortTokens (l : List (List Char)) : List (List Char) :=
  List.insertionSort (· ≤ ·) l

/-- `WarmStartHelper::compareOneFV`: returns `true` ("changed") unless the
two strings have equal length, equally many comma-separated tokens, and the
sorted token lists coincide. -/
def compareOneFV (s1 s2 : String) : Bool :=
  if s1.length ≠ s2.length then
    true
  else
    let t1 := tokenize s1
    let t2 := tokenize s2
    if t1.length ≠ t2.length then
      true
    else
      if sortTokens t1 = sortTokens t2 then false else true

/-- First value stored under field `f` in a field-value vector; mirrors the
`unordered_map` built from `v1` in `compareAllFV` (first occurrence wins). -/
def lookupFV (v1 : List FieldValueTuple) (f : String) : Option String :=
  match v1.find? (fun fv => fv.1 = f) with
  | none => none
  | some fv => some fv.2

/-- `WarmStartHelper::compareAllFV`: scans the refreshed vector `v2`; a field
missing from the restored vector `v1` is the C `assert` fault (`none`);
otherwise `some true` as soon as one field's value changed, `some false` when
all of `v2`'s fields compare unchanged. -/
def compareAllFV (v1 : List FieldValueTuple) : List FieldValueTuple → Option Bool
  | [] => some false
  | fv2 :: rest =>
    match lookupFV v1 fv2.1 with
    | none => none
    | some val1 =>
      if compareOneFV val1 fv2.2 then some true
      else compareAllFV v1 rest

/-- The refresh map `m_refreshMap` (`unordered_map<string, KFV>`), embedded
as an association list with unique keys. -/
abbrev RefreshMap := List (String × KeyOpFieldsValuesTuple)

/-- `m_refreshMap.find(k)`. -/
def lookupKey (m : RefreshMap) (k : String) : Option KeyOpFieldsValuesTuple :=
  match m.find? (fun p => p.1 = k) with
  | none => none
  | some p => some p.2

/-- `m_refreshMap.erase(k)`. -/
def eraseKey (m : RefreshMap) (k : String) : RefreshMap :=
  m.filter (fun p => p.1 ≠ k)

/-- `m_refreshMap[k] = v`: overwrite in place if the key exists, otherwise
insert (modelled at the end of the list). -/
def insertKey (m : RefreshMap) (k : String) (v : KeyOpFieldsValuesTuple) : RefreshMap :=
  if (lookupKey m k).isSome then
    m.map (fun p => if p.1 = k then (k, v) else p)
  else
    m ++ [(k, v)]

/-- The mutable members of `WarmStartHelper` relevant to the claims. -/
structure Helper where
  state : WarmStartState
  enabled : Bool
  restorationVector : List KeyOpFieldsValuesTuple
  refreshMap : RefreshMap
deriving DecidableEq

/-- `WarmStartHelper::setState` (local cache part; the external status-store
write carries no information beyond the argument). -/
def setState (h : Helper) (s : WarmStartState) : Helper :=
  { h with state := s }

/-- `WarmStartHelper::isReconciled`. -/
def isReconciled (h : Helper) : Bool :=
  h.state = WarmStartState.RECONCILED

/-- `WarmStartHelper::inProgress`. -/
def inProgress (h : Helper) : Bool :=
  h.enabled && !(h.state = WarmStartState.RECONCILED)

/-- External effects performed by `isEnabled` besides mutating the helper:
a status-store state write (from `setState`) and a `clear()` on the
synchronized table. -/
inductive ExtEffect where
  | statusWrite (st : WarmStartState)
  | sinkClear
deriving DecidableEq

/-- `WarmStartHelper::isEnabled`, with the externally read configuration flag
passed in. When enabled it sets state INITIALIZED and clears the sink; in
both cases it caches the flag and returns it. -/
def isEnabled (h : Helper) (cfg : Bool) : Helper × Bool × List ExtEffect :=
  if cfg then
    ({ h with state := WarmStartState.INITIALIZED, enabled := true }, true,
     [ExtEffect.statusWrite WarmStartState.INITIALIZED, ExtEffect.sinkClear])
  else
    ({ h with enabled := false }, false, [])

/-- `WarmStartHelper::runRestoration`, with the content read from the
restoration table passed in. -/
def runRestoration (h : Helper) (content : List KeyOpFieldsValuesTuple) :
    Helper × Bool :=
  if content.length = 0 then
    ({ h with restorationVector := content, state := WarmStartState.RECONCILED }, false)
  else
    ({ h with restorationVector := content, state := WarmStartState.RESTORED }, true)

/-- `WarmStartHelper::insertRefreshMap`. -/
def insertRefreshMap (h : Helper) (kfv : KeyOpFieldsValuesTuple) : Helper :=
  { h with refreshMap := insertKey h.refreshMap kfv.key kfv }

/-- One iteration of the snapshot pass of `reconcile` on restored record `r`:
the refresh-map state after the iteration plus the sink calls it issued;
`none` is the `compareAllFV` assertion fault. -/
def reconcileStep (m : RefreshMap) (r : KeyOpFieldsValuesTuple) :
    Option (RefreshMap × List SinkOp) :=
  match lookupKey m r.key with
  | none => some (m, [SinkOp.del r.key])
  | some kfv =>
    if kfv.op = DEL_COMMAND then
      some (eraseKey m r.key, [SinkOp.del r.key])
    else
      match compareAllFV r.fvs kfv.fvs with
      | none => none
      | some true => some (eraseKey m r.key, [SinkOp.set kfv.key kfv.fvs])
      | some false => some (eraseKey m r.key, [])

/-- The snapshot pass of `reconcile`: iterates the restoration vector in
order, threading the refresh map. -/
def reconcileAux (m : RefreshMap) : List KeyOpFieldsValuesTuple →
    Option (RefreshMap × List SinkOp)
  | [] => some (m, [])
  | r :: rest =>
    match reconcileStep m r with
    | none => none
    | some (m1, ops1) =>
      match reconcileAux m1 rest with
      | none => none
      | some (m2, ops2) => some (m2, ops1 ++ ops2)

/-- Body of `WarmStartHelper::reconcile` after the state assertion: snapshot
pass, then a `set` for every entry left in the refresh map, then both
containers are cleared and the state becomes RECONCILED. -/
def reconcileBody (h : Helper) : Option (Helper × List SinkOp) :=
  match reconcileAux h.refreshMap h.restorationVector with
  | none => none
  | some (mRem, ops) =>
    some ({ h with state := WarmStartState.RECONCILED,
                   refreshMap := [], restorationVector := [] },
          ops ++ mRem.map (fun p => SinkOp.set p.2.key p.2.fvs))

/-- `WarmStartHelper::reconcile`: `assert(getState() == RESTORED)` then the
body; `none` is an assertion fault. -/
def reconcile (h : Helper) : Option (Helper × List SinkOp) :=
  if h.state = WarmStartState.RESTORED then reconcileBody h else none

/-- A call the owning application may make after `isEnabled`. -/
inductive HelperCall where
  | setStateCall (s : WarmStartState)
  | runRestorationCall (content : List KeyOpFieldsValuesTuple)
  | insertRefreshMapCall (kfv : KeyOpFieldsValuesTuple)
  | reconcileCall

/-- Effect of one call on the helper state (a faulting `reconcile` aborts the
process, so leaving the state unchanged is conservative). -/
def applyCall (h : Helper) : HelperCall → Helper
  | HelperCall.setStateCall s => setState h s
  | HelperCall.runRestorationCall content => (runRestoration h content).1
  | HelperCall.insertRefreshMapCall kfv => insertRefreshMap h kfv
  | HelperCall.reconcileCall =>
    match reconcile h with
    | some (h', _) => h'
    | none => h

/-- Effect of a call sequence. -/
def applyCalls (h : Helper) (cs : List HelperCall) : Helper :=
  cs.foldl applyCall h

/-- Key targeted by a sink call. -/
def keyOfOp : SinkOp → String
  | SinkOp.set k _ => k
  | SinkOp.del k => k

/-- The sink calls of `ops` that target key `k`. -/
def keyedOps (ops : List SinkOp) (k : String) : List SinkOp :=
  ops.filter (fun o => keyOfOp o = k)

/-- Keys of the restoration snapshot, in order. -/
def snapKeys (snap : List KeyOpFieldsValuesTuple) : List String :=
  snap.map (fun r => r.key)

/-- First snapshot record with key `k`. -/
def snapFind (snap : List KeyOpFieldsValuesTuple) (k : String) :
    Option KeyOpFieldsValuesTuple :=
  snap.find? (fun r => r.key = k)

/-- Well-formedness of the refresh map: every stored record carries the key
it is filed under (true for any map built through `insertRefreshMap`, which
files each record under its own key). -/
abbrev WFMap (m : RefreshMap) : Prop := ∀ p ∈ m, p.2.key = p.1

/-- The per-key outcome of the snapshot pass: what `reconcile` emits for key
`k` while iterating the snapshot. -/
def passDecision (snap : List KeyOpFieldsValuesTuple) (m : RefreshMap)
    (k : String) : List SinkOp :=
  match snapFind snap k with
  | none => []
  | some r =>
    match lookupKey m k with
    | none => [SinkOp.del k]
    | some kfv =>
      if kfv.op = DEL_COMMAND then [SinkOp.del k]
      else if compareAllFV r.fvs kfv.fvs = some true then
        [SinkOp.set kfv.key kfv.fvs]
      else []

/-- The per-key outcome of the whole of `reconcile` (snapshot pass plus the
new-entry pass), as a function of the two inputs. -/
def reconcileDecision (snap : List KeyOpFieldsValuesTuple) (m : RefreshMap)
    (k : String) : List SinkOp :=
  match snapFind snap k with
  | some r =>
    match lookupKey m k with
    | none => [SinkOp.del k]
    | some kfv =>
      if kfv.op = DEL_COMMAND then [SinkOp.del k]
      else if compareAllFV r.fvs kfv.fvs = some true then
        [SinkOp.set kfv.key kfv.fvs]
      else []
  | none =>
    match lookupKey m k with
    | some kfv => [SinkOp.set kfv.key kfv.fvs]
    | none => []

/-- The record key `k` holds in the refreshed state: its refresh-map entry,
unless that entry is an explicit DELETE. -/
def refreshedRecord (m : RefreshMap) (k : String) : Option KeyOpFieldsValuesTuple :=
  match lookupKey m k with
  | some kfv => if kfv.op = DEL_COMMAND then none else some kfv
  | none => none

/-- Modelled from the spec (claim C2's wording): the minimal edit script
turning the restored state into the refreshed state — DELETE for removed
keys, SET for changed or added keys, nothing for unchanged keys, where a
DELETE-operation refresh record means the key is absent from the refreshed
state. -/
def minimalEditDecision (snap : List KeyOpFieldsValuesTuple) (m : RefreshMap)
    (k : String) : List SinkOp :=
  match snapFind snap k, refreshedRecord m k with
  | some r, some kfv =>
    if compareAllFV r.fvs kfv.fvs = some true then
      [SinkOp.set kfv.key kfv.fvs]
    else []
  | some _, none => [SinkOp.del k]
  | none, some kfv => [SinkOp.set kfv.key kfv.fvs]
  | none, none => []

/-- Modelled from the claim C1's wording: the snapshot pass — for each
restored record in snapshot order, a del when its key is absent from the
refresh map or refreshed with operation DELETE, a set of the refreshed key
and full refreshed field-values when present with differing field-values,
nothing when equivalent; the key is then removed from the refresh map. -/
def snapshotPassC1 : List KeyOpFieldsValuesTuple → RefreshMap →
    Option (List SinkOp × RefreshMap)
  | [], m => some ([], m)
  | r :: rest, m =>
    let dropped := eraseKey m r.key
    match lookupKey m r.key with
    | none =>
      match snapshotPassC1 rest dropped with
      | none => none
      | some (ops, m') => some (SinkOp.del r.key :: ops, m')
    | some kfv =>
      if kfv.op = DEL_COMMAND then
        match snapshotPassC1 rest dropped with
        | none => none
        | some (ops, m') => some (SinkOp.del r.key :: ops, m')
      else
        match compareAllFV r.fvs kfv.fvs with
        | none => none
        | some true =>
          match snapshotPassC1 rest dropped with
          | none => none
          | some (ops, m') => some (SinkOp.set kfv.key kfv.fvs :: ops, m')
        | some false => snapshotPassC1 rest dropped

/-- Modelled from the claim C1's wording: the full reconciliation — the
snapshot pass, then a set for every entry remaining in the refresh map, then
both containers are emptied and the state becomes RECONCILED. -/
def reconcileSpecC1 (h : Helper) : Option (Helper × List SinkOp) :=
  match snapshotPassC1 h.restorationVector h.refreshMap with
  | none => none
  | some (ops, mRem) =>
    some ({ h with state := WarmStartState.RECONCILED,
                   refreshMap := [], restorationVector := [] },
          ops ++ mRem.map (fun p => SinkOp.set p.2.key p.2.fvs))

/-! Concrete fixtures used by witnesses and counterexamples. -/

/-- A refresh record carrying an explicit DELETE for key `"K"`. -/
def kfvDelK : KeyOpFieldsValuesTuple := ⟨"K", "DEL", []⟩

/-- Helper whose refresh map holds a DELETE for a key absent from the
(empty) restoration snapshot. -/
def hUnmatchedDel : Helper :=
  ⟨WarmStartState.RESTORED, true, [], [("K", kfvDelK)]⟩

/-- One-record snapshot for key `"K"`. -/
def snapK : List KeyOpFieldsValuesTuple := [⟨"K", "SET", [("f", "a")]⟩]

/-- Helper with snapshot `snapK` and an explicit DELETE refresh record for
`"K"`. -/
def hSnapDel : Helper :=
  ⟨WarmStartState.RESTORED, true, snapK, [("K", kfvDelK)]⟩

/-- Refresh map of the spec's Scenario D: `"K"` unchanged, `"K2"` new. -/
def mapD : RefreshMap :=
  [("K", ⟨"K", "SET", [("f", "a")]⟩), ("K2", ⟨"K2", "SET", [("g", "x")]⟩)]

/-- Helper for the spec's Scenario D. -/
def hScenarioD : Helper := ⟨WarmStartState.RESTORED, true, snapK, mapD⟩

/-- Snapshot and refresh map of the spec's Scenario C: same multiset of
tokens in a different order. -/
def snapC : List KeyOpFieldsValuesTuple := [⟨"K", "SET", [("f", "a,b")]⟩]

/-- Refresh map of the spec's Scenario C. -/
def mapC : RefreshMap := [("K", ⟨"K", "SET", [("f", "b,a")]⟩)]

/-- Helper for the spec's Scenario C. -/
def hScenarioC : Helper := ⟨WarmStartState.RESTORED, true, snapC, mapC⟩

/-! ### Basic facts about `splitComma` -/

theorem splitComma_ne_nil (l : List Char) : splitComma l ≠ [] := by
  cases l with
  | nil => simp [splitComma]
  | cons c cs =>
    by_cases hc : c = ','
    · simp [splitComma, hc]
    · cases h : splitComma cs with
      | nil => simp [splitComma, hc, h]
      | cons t ts => simp [splitComma, hc, h]

/-- Total character count identity: the token lengths plus the separators
recover the length of the split string. -/
theorem splitComma_length_sum (l : List Char) :
    ((splitComma l).map List.length).sum + (splitComma l).length = l.length + 1 := by
  induction l with
  | nil => simp [splitComma]
  | cons c cs ih =>
    by_cases hc : c = ','
    · simp only [splitComma, if_pos hc, List.map_cons, List.sum_cons, List.length_cons,
        List.length_nil]
      omega
    · cases h : splitComma cs with
      | nil => exact absurd h (splitComma_ne_nil cs)
      | cons t ts =>
        simp only [splitComma, if_neg hc, h, List.map_cons, List.sum_cons,
          List.length_cons] at ih ⊢
        omega

/-- A string with no comma splits into the single token holding all its
characters. -/
theorem splitComma_no_comma (l : List Char) (hl : ',' ∉ l) : splitComma l = [l] := by
  induction l with
  | nil => simp [splitComma]
  | cons c cs ih =>
    have hc : c ≠ ',' := by
      intro h; exact hl (h ▸ List.mem_cons_self c cs)
    have hcs : ',' ∉ cs := fun h => hl (List.mem_cons_of_mem c h)
    rw [splitComma, if_neg hc, ih hcs]

/-! ### The comparator implements multiset equality of token lists -/

theorem compareOneFV_eq_false_iff (s1 s2 : String) :
    compareOneFV s1 s2 = false ↔ (tokenize s1).Perm (tokenize s2) := by
  constructor
  · intro h
    by_cases h1 : s1.length ≠ s2.length
    · simp [compareOneFV, h1] at h
    · by_cases h2 : (tokenize s1).length ≠ (tokenize s2).length
      · simp [compareOneFV, h1, h2] at h
      · by_cases h3 : sortTokens (tokenize s1) = sortTokens (tokenize s2)
        · have p1 : (tokenize s1).Perm (sortTokens (tokenize s1)) :=
            (List.perm_insertionSort _ _).symm
          have p2 : (sortTokens (tokenize s2)).Perm (tokenize s2) :=
            List.perm_insertionSort _ _
          exact p1.trans (h3 ▸ p2)
        · simp [compareOneFV, h1, h2, h3] at h
  · intro hp
    have hlen2 : (tokenize s1).length = (tokenize s2).length := hp.length_eq
    have hsort : sortTokens (tokenize s1) = sortTokens (tokenize s2) := by
      refine List.eq_of_perm_of_sorted ?_ (List.sorted_insertionSort _ _)
        (List.sorted_insertionSort _ _)
      exact (List.perm_insertionSort _ _).trans
        (hp.trans (List.perm_insertionSort _ _).symm)
    have hsum : ((tokenize s1).map List.length).sum
        = ((tokenize s2).map List.length).sum := (hp.map List.length).sum_eq
    have e1 := splitComma_length_sum s1.data
    have e2 := splitComma_length_sum s2.data
    have hlen1 : s1.length = s2.length := by
      show s1.data.length = s2.data.length
      simp only [tokenize] at hsum hlen2
      omega
    simp [compareOneFV, hlen1, hlen2, hsort]

/-- C3: `compareOneFV` treats each value string as a comma-separated token
list and returns the no-change result (`false`) exactly when the two token
lists agree as multisets; the spec's two concrete examples hold, and for
comma-free values the comparison degenerates to plain string equality. -/
theorem compareOneFV_multiset_law :
    (∀ s1 s2 : String,
      compareOneFV s1 s2 = false ↔ (tokenize s1).Perm (tokenize s2))
    ∧ compareOneFV "10.1.1.1,10.1.1.2" "10.1.1.2,10.1.1.1" = false
    ∧ compareOneFV "10.1.1.1,10.1.1.2" "10.1.1.1,10.1.1.3" = true
    ∧ (∀ s1 s2 : String, ',' ∉ s1.data → ',' ∉ s2.data →
        (compareOneFV s1 s2 = false ↔ s1 = s2)) := by
  refine ⟨compareOneFV_eq_false_iff, by decide, by decide, ?_⟩
  intro s1 s2 h1 h2
  rw [compareOneFV_eq_false_iff]
  rw [tokenize, tokenize, splitComma_no_comma s1.data h1, splitComma_no_comma s2.data h2]
  constructor
  · intro hp
    have hd : s1.data = s2.data := by simpa using List.perm_singleton.mp hp
    exact congrArg String.mk hd
  · intro hs
    rw [hs]

/-- Witness for `compareOneFV_multiset_law`: the degenerate plain-value case
at concrete inputs. -/
theorem compareOneFV_multiset_law_witness :
    compareOneFV "eth0" "eth0" = false :=
  (compareOneFV_multiset_law.2.2.2 "eth0" "eth0" (by decide) (by decide)).mpr rfl

/-! ### Asymmetry of the `compareAllFV` field-name assertion -/

/-- C5 counterexample: a field (`"g"`) present in the restored record but
missing from the refreshed record does not fault; `compareAllFV` silently
reports "no change". This refutes the claim that both directions of a
field-name mismatch trigger the assertion. -/
theorem compareAllFV_restored_only_field_silent :
    compareAllFV [("f", "a"), ("g", "b")] [("f", "a")] = some false := by decide

/-- C5 (amended): the `compareAllFV` assertion is one-directional. A
refreshed field absent from the restored record faults (`none`) when it is
reached first, and whenever every refreshed field name occurs in the restored
record the comparison never faults — in particular restored-only fields are
silently ignored rather than faulting. -/
theorem compareAllFV_fault_asymmetry :
    (∀ (v1 : List FieldValueTuple) (f x : String) (rest : List FieldValueTuple),
      lookupFV v1 f = none → compareAllFV v1 ((f, x) :: rest) = none)
    ∧ (∀ (v1 v2 : List FieldValueTuple),
      (∀ fv ∈ v2, (lookupFV v1 fv.1).isSome) → (compareAllFV v1 v2).isSome) := by
  constructor
  · intro v1 f x rest hnone
    simp [compareAllFV, hnone]
  · intro v1 v2 hall
    induction v2 with
    | nil => simp [compareAllFV]
    | cons fv2 rest ih =>
      have hfv := hall fv2 (List.mem_cons_self fv2 rest)
      match hlook : lookupFV v1 fv2.1 with
      | none => rw [hlook] at hfv; simp at hfv
      | some val1 =>
        by_cases hc : compareOneFV val1 fv2.2
        · simp [compareAllFV, hlook, hc]
        · have := ih (fun fv hfv => hall fv (List.mem_cons_of_mem _ hfv))
          simpa [compareAllFV, hlook, hc] using this

/-- Witness for `compareAllFV_fault_asymmetry` at concrete inputs: an empty
restored record faults on any refreshed field, and a matching record never
faults. -/
theorem compareAllFV_fault_asymmetry_witness :
    compareAllFV [] [("f", "a")] = none
    ∧ (compareAllFV [("f", "a")] [("f", "a")]).isSome := by
  constructor
  · exact compareAllFV_fault_asymmetry.1 [] "f" "a" [] rfl
  · exact compareAllFV_fault_asymmetry.2 [("f", "a")] [("f", "a")] (by decide)

/-! ### Helper-state plumbing lemmas -/

/-- A successful `reconcile` clears both containers, moves the state to
RECONCILED and leaves the cached enabled flag alone. -/
theorem reconcile_some_fields {h h' : Helper} {ops : List SinkOp}
    (hr : reconcile h = some (h', ops)) :
    h'.enabled = h.enabled ∧ h'.state = WarmStartState.RECONCILED
    ∧ h'.refreshMap = [] ∧ h'.restorationVector = [] := by
  unfold reconcile at hr
  by_cases hs : h.state = WarmStartState.RESTORED
  · rw [if_pos hs] at hr
    unfold reconcileBody at hr
    cases hx : reconcileAux h.refreshMap h.restorationVector with
    | none => rw [hx] at hr; simp at hr
    | some p =>
      rw [hx] at hr
      have h1 : h' = { h with state := WarmStartState.RECONCILED, refreshMap := [], restorationVector := [] } :=
        (congrArg Prod.fst (Option.some.inj hr)).symm
      subst h1
      exact ⟨rfl, rfl, rfl, rfl⟩
  · rw [if_neg hs] at hr
    simp at hr

/-- No lifecycle call modifies the cached enabled flag. -/
theorem applyCall_enabled (h : Helper) (c : HelperCall) :
    (applyCall h c).enabled = h.enabled := by
  cases c with
  | setStateCall s => rfl
  | runRestorationCall content =>
    simp only [applyCall, runRestoration]
    split <;> rfl
  | insertRefreshMapCall kfv => rfl
  | reconcileCall =>
    simp only [applyCall]
    cases hr : reconcile h with
    | none => rfl
    | some p =>
      cases p with
      | mk h' ops => exact (reconcile_some_fields hr).1

/-- No lifecycle call sequence modifies the cached enabled flag. -/
theorem applyCalls_enabled (cs : List HelperCall) :
    ∀ h : Helper, (applyCalls h cs).enabled = h.enabled := by
  induction cs with
  | nil => intro h; rfl
  | cons c cs ih =>
    intro h
    show (applyCalls (applyCall h c) cs).enabled = h.enabled
    rw [ih (applyCall h c), applyCall_enabled]

/-! ### Claim theorems for the state machine and orchestration -/

/-- C6: `runRestoration` stores the loaded snapshot; an empty snapshot moves
the state straight to RECONCILED and returns false, a non-empty one moves it
to RESTORED and returns true. -/
theorem runRestoration_empty_vs_nonempty :
    ∀ (h : Helper) (content : List KeyOpFieldsValuesTuple),
      (content = [] →
        runRestoration h content =
          ({ h with restorationVector := [],
                    state := WarmStartState.RECONCILED }, false))
      ∧ (content ≠ [] →
        runRestoration h content =
          ({ h with restorationVector := content,
                    state := WarmStartState.RESTORED }, true)) := by
  intro h content
  constructor
  · intro hc
    subst hc
    rfl
  · intro hc
    have hlen : content.length ≠ 0 := by
      simpa [List.length_eq_zero] using hc
    simp [runRestoration, hlen]

/-- Witness for `runRestoration_empty_vs_nonempty` at concrete snapshots. -/
theorem runRestoration_empty_vs_nonempty_witness :
    runRestoration ⟨WarmStartState.INITIALIZED, true, [], []⟩ [] =
      (⟨WarmStartState.RECONCILED, true, [], []⟩, false)
    ∧ runRestoration ⟨WarmStartState.INITIALIZED, true, [], []⟩
        [⟨"K", "SET", []⟩] =
      (⟨WarmStartState.RESTORED, true, [⟨"K", "SET", []⟩], []⟩, true) :=
  ⟨(runRestoration_empty_vs_nonempty _ []).1 rfl,
   (runRestoration_empty_vs_nonempty _ _).2 (by decide)⟩

/-- C7: `reconcile` faults (assertion) whenever the cached state is not
RESTORED, and when it is RESTORED the ordering check passes and the
reconciliation body runs. -/
theorem reconcile_requires_restored :
    (∀ h : Helper, h.state ≠ WarmStartState.RESTORED → reconcile h = none)
    ∧ (∀ h : Helper, h.state = WarmStartState.RESTORED →
        reconcile h = reconcileBody h) := by
  constructor
  · intro h hs
    simp [reconcile, hs]
  · intro h hs
    simp [reconcile, hs]

/-- Witness for `reconcile_requires_restored`: faulting before restoration
and proceeding in state RESTORED at concrete helpers. -/
theorem reconcile_requires_restored_witness :
    reconcile ⟨WarmStartState.INITIALIZED, true, [], []⟩ = none
    ∧ reconcile ⟨WarmStartState.RESTORED, true, [], []⟩ =
        reconcileBody ⟨WarmStartState.RESTORED, true, [], []⟩ :=
  ⟨reconcile_requires_restored.1 _ (by decide),
   reconcile_requires_restored.2 _ rfl⟩

/-- C8: `inProgress` is true exactly when the cached enabled flag is set and
the cached state is not RECONCILED; `isReconciled` is true exactly in state
RECONCILED; and after `isEnabled` returns false, no sequence of
setState/runRestoration/insertRefreshMap/reconcile calls can make
`inProgress` true again. -/
theorem inProgress_state_machine_law :
    (∀ h : Helper, inProgress h = true ↔
      (h.enabled = true ∧ h.state ≠ WarmStartState.RECONCILED))
    ∧ (∀ h : Helper, isReconciled h = true ↔ h.state = WarmStartState.RECONCILED)
    ∧ (∀ (h : Helper) (cs : List HelperCall),
        inProgress (applyCalls (isEnabled h false).1 cs) = false) := by
  refine ⟨?_, ?_, ?_⟩
  · intro h
    simp [inProgress]
  · intro h
    simp [isReconciled]
  · intro h cs
    have he : (applyCalls (isEnabled h false).1 cs).enabled = false := by
      rw [applyCalls_enabled]
      rfl
    simp [inProgress, he]

/-- Witness for `inProgress_state_machine_law` at a concrete helper and call
sequence. -/
theorem inProgress_state_machine_law_witness :
    inProgress (applyCalls
      (isEnabled ⟨WarmStartState.INITIALIZED, true, [], []⟩ false).1
      [HelperCall.setStateCall WarmStartState.RESTORED]) = false :=
  inProgress_state_machine_law.2.2 _ _

/-- C10: with the configuration flag false, `isEnabled` only caches the flag:
state, snapshot and refresh map are untouched, it returns false, and it
performs no status-store write and no sink `clear()`. -/
theorem isEnabled_false_frame :
    ∀ h : Helper,
      (isEnabled h false).1.state = h.state
      ∧ (isEnabled h false).1.restorationVector = h.restorationVector
      ∧ (isEnabled h false).1.refreshMap = h.refreshMap
      ∧ (isEnabled h false).1.enabled = false
      ∧ (isEnabled h false).2.1 = false
      ∧ (isEnabled h false).2.2 = [] := by
  intro h
  exact ⟨rfl, rfl, rfl, rfl, rfl, rfl⟩

/-! ### Association-list lemmas for the refresh map -/

theorem lookupKey_nil (k : String) : lookupKey [] k = none := rfl

theorem lookupKey_cons (p : String × KeyOpFieldsValuesTuple) (m : RefreshMap)
    (k : String) :
    lookupKey (p :: m) k = if p.1 = k then some p.2 else lookupKey m k := by
  by_cases h : p.1 = k
  · rw [if_pos h]
    unfold lookupKey
    rw [List.find?_cons_of_pos _ (by simpa using h)]
  · rw [if_neg h]
    unfold lookupKey
    rw [List.find?_cons_of_neg _ (by simpa using h)]

theorem eraseKey_nil (k : String) : eraseKey [] k = [] := rfl

theorem eraseKey_cons (p : String × KeyOpFieldsValuesTuple) (m : RefreshMap)
    (k : String) :
    eraseKey (p :: m) k = if p.1 = k then eraseKey m k else p :: eraseKey m k := by
  unfold eraseKey
  rw [List.filter_cons]
  by_cases h : p.1 = k
  · simp [h]
  · simp [h]

theorem lookupKey_eq_none_iff (m : RefreshMap) (k : String) :
    lookupKey m k = none ↔ ∀ p ∈ m, p.1 ≠ k := by
  induction m with
  | nil => simp [lookupKey_nil]
  | cons p m ih =>
    rw [lookupKey_cons]
    by_cases h : p.1 = k
    · simp [h]
    · simp [h, ih]

theorem lookupKey_some_ex {m : RefreshMap} {k : String} {v : KeyOpFieldsValuesTuple}
    (h : lookupKey m k = some v) : ∃ p ∈ m, p.1 = k ∧ p.2 = v := by
  induction m with
  | nil => simp [lookupKey_nil] at h
  | cons p m ih =>
    rw [lookupKey_cons] at h
    by_cases hp : p.1 = k
    · rw [if_pos hp] at h
      exact ⟨p, List.mem_cons_self _ _, hp, Option.some.inj h⟩
    · rw [if_neg hp] at h
      obtain ⟨q, hq, h1, h2⟩ := ih h
      exact ⟨q, List.mem_cons_of_mem _ hq, h1, h2⟩

theorem lookupKey_wf {m : RefreshMap} (hwf : WFMap m) {k : String}
    {v : KeyOpFieldsValuesTuple} (h : lookupKey m k = some v) : v.key = k := by
  obtain ⟨p, hp, h1, h2⟩ := lookupKey_some_ex h
  rw [← h2, hwf p hp, h1]

theorem lookupKey_eraseKey {m : RefreshMap} {k k' : String} (h : k' ≠ k) :
    lookupKey (eraseKey m k) k' = lookupKey m k' := by
  induction m with
  | nil => rfl
  | cons p m ih =>
    rw [eraseKey_cons]
    by_cases hp : p.1 = k
    · rw [if_pos hp, lookupKey_cons, if_neg (fun hc => h (by rw [← hc]; exact hp))]
      exact ih
    · rw [if_neg hp, lookupKey_cons, lookupKey_cons]
      by_cases hpk : p.1 = k'
      · rw [if_pos hpk, if_pos hpk]
      · rw [if_neg hpk, if_neg hpk]
        exact ih

theorem eraseKey_of_lookup_none {m : RefreshMap} {k : String}
    (h : lookupKey m k = none) : eraseKey m k = m := by
  induction m with
  | nil => rfl
  | cons p m ih =>
    rw [lookupKey_cons] at h
    by_cases hp : p.1 = k
    · rw [if_pos hp] at h
      simp at h
    · rw [if_neg hp] at h
      rw [eraseKey_cons, if_neg hp, ih h]

theorem WFMap_filter {m : RefreshMap} (hwf : WFMap m)
    (q : String × KeyOpFieldsValuesTuple → Bool) : WFMap (m.filter q) :=
  fun p hp => hwf p (List.mem_of_mem_filter hp)

theorem WFMap_eraseKey {m : RefreshMap} (hwf : WFMap m) (k : String) :
    WFMap (eraseKey m k) :=
  WFMap_filter hwf _

theorem nodupKeys_filter {m : RefreshMap}
    (h : (m.map (fun p => p.1)).Nodup)
    (q : String × KeyOpFieldsValuesTuple → Bool) :
    ((m.filter q).map (fun p => p.1)).Nodup :=
  List.Nodup.sublist ((List.filter_sublist m).map _) h

theorem lookupKey_eq_none_of_not_mem {m : RefreshMap} {k : String}
    (h : k ∉ m.map (fun p => p.1)) : lookupKey m k = none :=
  (lookupKey_eq_none_iff m k).mpr
    (fun p hp he => h (he ▸ List.mem_map_of_mem _ hp))

theorem lookupKey_filter_keys (m : RefreshMap) (q : String → Bool) (k : String)
    (hq : q k = true) :
    lookupKey (m.filter (fun p => q p.1)) k = lookupKey m k := by
  induction m with
  | nil => rfl
  | cons p m ih =>
    rw [List.filter_cons]
    by_cases hp : q p.1 = true
    · rw [if_pos hp, lookupKey_cons, lookupKey_cons]
      by_cases hpk : p.1 = k
      · rw [if_pos hpk, if_pos hpk]
      · rw [if_neg hpk, if_neg hpk]
        exact ih
    · rw [if_neg hp, ih, lookupKey_cons,
        if_neg (fun hc => hp (by rw [hc]; exact hq))]

/-! ### Lemmas on snapshot lookup and per-key sink calls -/

theorem snapFind_nil (k : String) : snapFind [] k = none := rfl

theorem snapFind_cons (r : KeyOpFieldsValuesTuple)
    (rest : List KeyOpFieldsValuesTuple) (k : String) :
    snapFind (r :: rest) k = if r.key = k then some r else snapFind rest k := by
  by_cases h : r.key = k
  · rw [if_pos h]
    unfold snapFind
    rw [List.find?_cons_of_pos _ (by simpa using h)]
  · rw [if_neg h]
    unfold snapFind
    rw [List.find?_cons_of_neg _ (by simpa using h)]

theorem snapKeys_cons (r : KeyOpFieldsValuesTuple)
    (rest : List KeyOpFieldsValuesTuple) :
    snapKeys (r :: rest) = r.key :: snapKeys rest := rfl

theorem snapFind_eq_none_iff (snap : List KeyOpFieldsValuesTuple) (k : String) :
    snapFind snap k = none ↔ k ∉ snapKeys snap := by
  induction snap with
  | nil => simp [snapFind_nil, snapKeys]
  | cons r rest ih =>
    rw [snapFind_cons, snapKeys_cons]
    by_cases h : r.key = k
    · simp [h]
    · rw [if_neg h, ih]
      constructor
      · intro hk hmem
        rcases List.mem_cons.mp hmem with hc | hc
        · exact h hc.symm
        · exact hk hc
      · intro hk hmem
        exact hk (List.mem_cons_of_mem _ hmem)

theorem keyedOps_nil (k : String) : keyedOps [] k = [] := rfl

theorem keyedOps_cons (o : SinkOp) (ops : List SinkOp) (k : String) :
    keyedOps (o :: ops) k =
      if keyOfOp o = k then o :: keyedOps ops k else keyedOps ops k := by
  unfold keyedOps
  rw [List.filter_cons]
  by_cases h : keyOfOp o = k
  · simp [h]
  · simp [h]

theorem keyedOps_append (ops1 ops2 : List SinkOp) (k : String) :
    keyedOps (ops1 ++ ops2) k = keyedOps ops1 k ++ keyedOps ops2 k := by
  unfold keyedOps
  exact List.filter_append _ _

theorem keyedOps_eq_nil {ops : List SinkOp} {k : String}
    (h : ∀ op ∈ ops, keyOfOp op ≠ k) : keyedOps ops k = [] := by
  induction ops with
  | nil => rfl
  | cons o ops ih =>
    rw [keyedOps_cons, if_neg (h o (List.mem_cons_self _ _))]
    exact ih (fun op hop => h op (List.mem_cons_of_mem _ hop))

theorem mem_of_mem_keyedOps {ops : List SinkOp} {k : String} {op : SinkOp}
    (h : op ∈ keyedOps ops k) : op ∈ ops :=
  List.mem_of_mem_filter h

theorem mem_keyedOps_of_mem {ops : List SinkOp} {k : String} {op : SinkOp}
    (h1 : op ∈ ops) (h2 : keyOfOp op = k) : op ∈ keyedOps ops k :=
  List.mem_filter.mpr ⟨h1, by simp [h2]⟩

theorem passDecision_congr_lookup (snap : List KeyOpFieldsValuesTuple)
    {m m' : RefreshMap} (k : String)
    (hl : lookupKey m' k = lookupKey m k) :
    passDecision snap m' k = passDecision snap m k := by
  unfold passDecision
  rw [hl]

theorem passDecision_of_snapFind_none {snap : List KeyOpFieldsValuesTuple}
    (m : RefreshMap) {k : String} (h : snapFind snap k = none) :
    passDecision snap m k = [] := by
  unfold passDecision
  rw [h]

theorem passDecision_cons_ne {r : KeyOpFieldsValuesTuple}
    {rest : List KeyOpFieldsValuesTuple} {k : String} (m : RefreshMap)
    (h : r.key ≠ k) :
    passDecision (r :: rest) m k = passDecision rest m k := by
  unfold passDecision
  rw [snapFind_cons, if_neg h]

/-! ### Characterization of the snapshot pass -/

/-- What the snapshot pass computes: the surviving refresh map is exactly the
set of entries whose key is not in the snapshot, every emitted sink call
targets a snapshot key, and the calls for key `k` are exactly
`passDecision snap m k`. -/
theorem reconcileAux_characterization :
    ∀ (snap : List KeyOpFieldsValuesTuple) (m : RefreshMap),
      WFMap m → (snapKeys snap).Nodup →
      ∀ (mRem : RefreshMap) (ops : List SinkOp),
        reconcileAux m snap = some (mRem, ops) →
        mRem = m.filter (fun p => p.1 ∉ snapKeys snap)
        ∧ (∀ op ∈ ops, keyOfOp op ∈ snapKeys snap)
        ∧ (∀ k, keyedOps ops k = passDecision snap m k) := by
  intro snap
  induction snap with
  | nil =>
    intro m hwf hnodup mRem ops h
    have hm : mRem = m := (congrArg Prod.fst (Option.some.inj h)).symm
    have ho : ops = [] := (congrArg Prod.snd (Option.some.inj h)).symm
    subst hm
    subst ho
    refine ⟨by simp [snapKeys], by simp, ?_⟩
    intro k
    rw [keyedOps_nil, passDecision_of_snapFind_none _ (snapFind_nil k)]
  | cons r rest ih =>
    intro m hwf hnodup mRem ops h
    rw [snapKeys_cons] at hnodup
    have hnr : r.key ∉ snapKeys rest := (List.nodup_cons.mp hnodup).1
    have hnrest : (snapKeys rest).Nodup := (List.nodup_cons.mp hnodup).2
    simp only [reconcileAux] at h
    cases hstep : reconcileStep m r with
    | none => simp [hstep] at h
    | some p1 =>
      obtain ⟨m1, ops1⟩ := p1
      simp only [hstep] at h
      cases haux : reconcileAux m1 rest with
      | none => simp [haux] at h
      | some p2 =>
        obtain ⟨m2, ops2⟩ := p2
        simp only [haux, Option.some.injEq, Prod.mk.injEq] at h
        obtain ⟨hm, ho⟩ := h
        rw [← hm, ← ho]
        cases hlook : lookupKey m r.key with
        | none =>
          simp only [reconcileStep, hlook, Option.some.injEq, Prod.mk.injEq] at hstep
          obtain ⟨hm1, hops1⟩ := hstep
          subst hm1
          subst hops1
          obtain ⟨ihm, ihkeys, ihchar⟩ := ih m hwf hnrest m2 ops2 haux
          refine ⟨?_, ?_, ?_⟩
          · rw [ihm]
            refine List.filter_congr ?_
            intro p hp
            have hpk : p.1 ≠ r.key := (lookupKey_eq_none_iff m r.key).mp hlook p hp
            refine decide_eq_decide.mpr ?_
            rw [snapKeys_cons]
            simp [List.mem_cons, hpk]
          · intro op hop
            rw [snapKeys_cons]
            rcases List.mem_append.mp hop with hmem | hmem
            · rw [List.mem_singleton.mp hmem]
              exact List.mem_cons_self _ _
            · exact List.mem_cons_of_mem _ (ihkeys op hmem)
          · intro k
            rw [keyedOps_append]
            by_cases hk : r.key = k
            · subst hk
              have h2 : keyedOps ops2 r.key = [] := by
                rw [ihchar]
                exact passDecision_of_snapFind_none m
                  ((snapFind_eq_none_iff rest r.key).mpr hnr)
              simp [h2, keyedOps_cons, keyedOps_nil, keyOfOp, passDecision,
                snapFind_cons, hlook]
            · have h1 : keyedOps [SinkOp.del r.key] k = [] := by
                rw [keyedOps_cons, if_neg (by simpa [keyOfOp] using hk), keyedOps_nil]
              rw [h1, List.nil_append, ihchar k, passDecision_cons_ne m hk]
        | some kfv =>
          have hkey : kfv.key = r.key := lookupKey_wf hwf hlook
          by_cases hop : kfv.op = DEL_COMMAND
          · simp only [reconcileStep, hlook, if_pos hop, Option.some.injEq,
              Prod.mk.injEq] at hstep
            obtain ⟨hm1, hops1⟩ := hstep
            subst hm1
            subst hops1
            obtain ⟨ihm, ihkeys, ihchar⟩ :=
              ih (eraseKey m r.key) (WFMap_eraseKey hwf _) hnrest m2 ops2 haux
            refine ⟨?_, ?_, ?_⟩
            · rw [ihm]
              unfold eraseKey
              rw [List.filter_filter]
              refine List.filter_congr ?_
              intro p hp
              rw [snapKeys_cons]
              by_cases h1 : p.1 = r.key <;> by_cases h2 : p.1 ∈ snapKeys rest <;>
                simp [h1, h2]
            · intro op hop2
              rw [snapKeys_cons]
              rcases List.mem_append.mp hop2 with hmem | hmem
              · rw [List.mem_singleton.mp hmem]
                exact List.mem_cons_self _ _
              · exact List.mem_cons_of_mem _ (ihkeys op hmem)
            · intro k
              rw [keyedOps_append]
              by_cases hk : r.key = k
              · subst hk
                have h2 : keyedOps ops2 r.key = [] := by
                  rw [ihchar]
                  exact passDecision_of_snapFind_none _
                    ((snapFind_eq_none_iff rest r.key).mpr hnr)
                simp [h2, keyedOps_cons, keyedOps_nil, keyOfOp, passDecision,
                  snapFind_cons, hlook, hop]
              · have h1 : keyedOps [SinkOp.del r.key] k = [] := by
                  rw [keyedOps_cons, if_neg (by simpa [keyOfOp] using hk), keyedOps_nil]
                rw [h1, List.nil_append, ihchar k,
                  passDecision_congr_lookup rest k (lookupKey_eraseKey (fun hc => hk hc.symm)),
                  passDecision_cons_ne m hk]
          · cases hcmp : compareAllFV r.fvs kfv.fvs with
            | none =>
              simp [reconcileStep, hlook, hop, hcmp] at hstep
            | some b =>
              cases b with
              | true =>
                simp only [reconcileStep, hlook, if_neg hop, hcmp, Option.some.injEq,
                  Prod.mk.injEq] at hstep
                obtain ⟨hm1, hops1⟩ := hstep
                subst hm1
                subst hops1
                obtain ⟨ihm, ihkeys, ihchar⟩ :=
                  ih (eraseKey m r.key) (WFMap_eraseKey hwf _) hnrest m2 ops2 haux
                refine ⟨?_, ?_, ?_⟩
                · rw [ihm]
                  unfold eraseKey
                  rw [List.filter_filter]
                  refine List.filter_congr ?_
                  intro p hp
                  rw [snapKeys_cons]
                  by_cases h1 : p.1 = r.key <;> by_cases h2 : p.1 ∈ snapKeys rest <;>
                    simp [h1, h2]
                · intro op hop2
                  rw [snapKeys_cons]
                  rcases List.mem_append.mp hop2 with hmem | hmem
                  · rw [List.mem_singleton.mp hmem]
                    rw [show keyOfOp (SinkOp.set kfv.key kfv.fvs) = kfv.key from rfl, hkey]
                    exact List.mem_cons_self _ _
                  · exact List.mem_cons_of_mem _ (ihkeys op hmem)
                · intro k
                  rw [keyedOps_append]
                  by_cases hk : r.key = k
                  · subst hk
                    have h2 : keyedOps ops2 r.key = [] := by
                      rw [ihchar]
                      exact passDecision_of_snapFind_none _
                        ((snapFind_eq_none_iff rest r.key).mpr hnr)
                    simp [h2, keyedOps_cons, keyedOps_nil, keyOfOp, hkey, passDecision,
                      snapFind_cons, hlook, hop, hcmp]
                  · have h1 : keyedOps [SinkOp.set kfv.key kfv.fvs] k = [] := by
                      rw [keyedOps_cons,
                        if_neg (by simp only [keyOfOp, hkey]; exact hk), keyedOps_nil]
                    rw [h1, List.nil_append, ihchar k,
                      passDecision_congr_lookup rest k
                        (lookupKey_eraseKey (fun hc => hk hc.symm)),
                      passDecision_cons_ne m hk]
              | false =>
                simp only [reconcileStep, hlook, if_neg hop, hcmp, Option.some.injEq,
                  Prod.mk.injEq] at hstep
                obtain ⟨hm1, hops1⟩ := hstep
                subst hm1
                subst hops1
                obtain ⟨ihm, ihkeys, ihchar⟩ :=
                  ih (eraseKey m r.key) (WFMap_eraseKey hwf _) hnrest m2 ops2 haux
                refine ⟨?_, ?_, ?_⟩
                · rw [ihm]
                  unfold eraseKey
                  rw [List.filter_filter]
                  refine List.filter_congr ?_
                  intro p hp
                  rw [snapKeys_cons]
                  by_cases h1 : p.1 = r.key <;> by_cases h2 : p.1 ∈ snapKeys rest <;>
                    simp [h1, h2]
                · intro op hop2
                  rw [snapKeys_cons]
                  rcases List.mem_append.mp hop2 with hmem | hmem
                  · simp at hmem
                  · exact List.mem_cons_of_mem _ (ihkeys op hmem)
                · intro k
                  rw [keyedOps_append, keyedOps_nil, List.nil_append]
                  by_cases hk : r.key = k
                  · subst hk
                    have h2 : keyedOps ops2 r.key = [] := by
                      rw [ihchar]
                      exact passDecision_of_snapFind_none _
                        ((snapFind_eq_none_iff rest r.key).mpr hnr)
                    simp [h2, passDecision, snapFind_cons, hlook, hop, hcmp]
                  · rw [ihchar k,
                      passDecision_congr_lookup rest k
                        (lookupKey_eraseKey (fun hc => hk hc.symm)),
                      passDecision_cons_ne m hk]

/-- Per-key view of the new-entry pass: mapping the surviving refresh map to
`set` calls emits exactly the stored record for `k`, when present. -/
theorem keyedOps_map_set :
    ∀ (l : RefreshMap), WFMap l → (l.map (fun p => p.1)).Nodup →
      ∀ k : String,
        keyedOps (l.map (fun p => SinkOp.set p.2.key p.2.fvs)) k
          = match lookupKey l k with
            | some kfv => [SinkOp.set kfv.key kfv.fvs]
            | none => [] := by
  intro l
  induction l with
  | nil => intro _ _ k; rfl
  | cons p rest ih =>
    intro hwf hnodup k
    have hkp : p.2.key = p.1 := hwf p (List.mem_cons_self _ _)
    have hwfr : WFMap rest := fun q hq => hwf q (List.mem_cons_of_mem _ hq)
    have hnodup2 : (p.1 :: rest.map (fun p => p.1)).Nodup := by
      simpa only [List.map_cons] using hnodup
    have hnodup' := List.nodup_cons.mp hnodup2
    rw [List.map_cons, keyedOps_cons, lookupKey_cons]
    by_cases hp : p.1 = k
    · rw [if_pos (by simp [keyOfOp, hkp, hp]), if_pos hp]
      have hrest : lookupKey rest k = none :=
        lookupKey_eq_none_of_not_mem (fun hc => hnodup'.1 (hp ▸ hc))
      rw [ih hwfr hnodup'.2 k, hrest]
    · rw [if_neg (by simp [keyOfOp, hkp, hp]), if_neg hp]
      exact ih hwfr hnodup'.2 k

/-- Per-key characterization of a successful `reconcile`: the sink calls
targeting key `k` are exactly `reconcileDecision snapshot refreshMap k`. -/
theorem reconcile_ops_characterization (h h' : Helper) (ops : List SinkOp)
    (hwf : WFMap h.refreshMap)
    (hnodupS : (snapKeys h.restorationVector).Nodup)
    (hnodupM : (h.refreshMap.map (fun p => p.1)).Nodup)
    (hrec : reconcile h = some (h', ops)) :
    ∀ k, keyedOps ops k = reconcileDecision h.restorationVector h.refreshMap k := by
  unfold reconcile at hrec
  by_cases hs : h.state = WarmStartState.RESTORED
  · rw [if_pos hs] at hrec
    unfold reconcileBody at hrec
    cases hx : reconcileAux h.refreshMap h.restorationVector with
    | none => rw [hx] at hrec; simp at hrec
    | some p =>
      obtain ⟨mRem, ops1⟩ := p
      rw [hx] at hrec
      have hops : ops = ops1 ++ mRem.map (fun p => SinkOp.set p.2.key p.2.fvs) :=
        (congrArg Prod.snd (Option.some.inj hrec)).symm
      obtain ⟨hmRem, hkeys, hchar⟩ :=
        reconcileAux_characterization _ _ hwf hnodupS _ _ hx
      have hwfRem : WFMap mRem := hmRem ▸ WFMap_filter hwf _
      have hnodupRem : (mRem.map (fun p => p.1)).Nodup :=
        hmRem ▸ nodupKeys_filter hnodupM _
      intro k
      rw [hops, keyedOps_append, hchar k,
        keyedOps_map_set mRem hwfRem hnodupRem k]
      cases hsf : snapFind h.restorationVector k with
      | some r =>
        have hkmem : k ∈ snapKeys h.restorationVector := by
          by_contra hc
          rw [(snapFind_eq_none_iff _ _).mpr hc] at hsf
          exact Option.noConfusion hsf
        have hRemNone : lookupKey mRem k = none := by
          refine (lookupKey_eq_none_iff _ _).mpr ?_
          intro p hp he
          rw [hmRem] at hp
          have := List.of_mem_filter hp
          rw [he] at this
          simp at this
          exact this hkmem
        rw [hRemNone]
        unfold reconcileDecision passDecision
        rw [hsf]
        cases lookupKey h.refreshMap k with
        | none => simp
        | some kfv => simp
      | none =>
        have hkmem : k ∉ snapKeys h.restorationVector :=
          (snapFind_eq_none_iff _ _).mp hsf
        have hpass : passDecision h.restorationVector h.refreshMap k = [] :=
          passDecision_of_snapFind_none _ hsf
        have hRemEq : lookupKey mRem k = lookupKey h.refreshMap k := by
          rw [hmRem]
          exact lookupKey_filter_keys h.refreshMap
            (fun s => decide (s ∉ snapKeys h.restorationVector)) k
            (by simpa using hkmem)
        rw [hpass, List.nil_append, hRemEq]
        unfold reconcileDecision
        rw [hsf]
  · rw [if_neg hs] at hrec
    simp at hrec

/-! ### The minimal-edit-script claims -/

theorem minimalEditDecision_length_le (snap : List KeyOpFieldsValuesTuple)
    (m : RefreshMap) (k : String) :
    (minimalEditDecision snap m k).length ≤ 1 := by
  unfold minimalEditDecision
  cases snapFind snap k with
  | none =>
    cases refreshedRecord m k with
    | none => simp
    | some kfv => simp
  | some r =>
    cases refreshedRecord m k with
    | none => simp
    | some kfv =>
      by_cases hc : compareAllFV r.fvs kfv.fvs = some true
      · simp [hc]
      · simp [hc]

/-- When every explicit DELETE in the refresh map targets a snapshot key, the
code's per-key decision coincides with the claimed minimal edit script. -/
theorem reconcileDecision_eq_minimal (snap : List KeyOpFieldsValuesTuple)
    (m : RefreshMap)
    (hdel : ∀ p ∈ m, p.2.op = DEL_COMMAND → p.1 ∈ snapKeys snap) (k : String) :
    reconcileDecision snap m k = minimalEditDecision snap m k := by
  unfold reconcileDecision minimalEditDecision refreshedRecord
  cases hsf : snapFind snap k with
  | some r =>
    cases hl : lookupKey m k with
    | none => simp
    | some kfv =>
      by_cases hop : kfv.op = DEL_COMMAND
      · simp [hop]
      · simp [hop]
  | none =>
    cases hl : lookupKey m k with
    | none => simp
    | some kfv =>
      by_cases hop : kfv.op = DEL_COMMAND
      · exfalso
        obtain ⟨p, hp, h1, h2⟩ := lookupKey_some_ex hl
        have hmem := hdel p hp (by rw [h2]; exact hop)
        rw [h1] at hmem
        exact (snapFind_eq_none_iff snap k).mp hsf hmem
      · simp [hop]

/-- C2 counterexample: with an empty snapshot and a refresh map holding one
explicit DELETE record for `"K"`, `reconcile` issues `set("K", [])` — but the
minimal edit script turning the restored state into the refreshed state
decides no operation for `"K"` (the key is in neither state), so the issued
operations are not the minimal edit script. -/
theorem reconcile_not_minimal_for_unmatched_delete :
    reconcile hUnmatchedDel =
      some (⟨WarmStartState.RECONCILED, true, [], []⟩, [SinkOp.set "K" []])
    ∧ kfvDelK.op = DEL_COMMAND
    ∧ minimalEditDecision hUnmatchedDel.restorationVector
        hUnmatchedDel.refreshMap "K" = [] := by decide

/-- C2 (amended): provided the snapshot has no duplicate keys, the refresh
map is well-formed (unique keys, each record filed under its own key) and
every explicit DELETE record targets a snapshot key, the sink calls of a
successful `reconcile` are exactly the minimal edit script: per key they
equal `minimalEditDecision` (DELETE exactly for removed keys, SET exactly for
changed or added keys, nothing for unchanged keys — a deterministic function
of the two inputs), and no key receives two operations. -/
theorem reconcile_minimal_edit_script (h h' : Helper) (ops : List SinkOp)
    (hwf : WFMap h.refreshMap)
    (hnodupS : (snapKeys h.restorationVector).Nodup)
    (hnodupM : (h.refreshMap.map (fun p => p.1)).Nodup)
    (hdel : ∀ p ∈ h.refreshMap, p.2.op = DEL_COMMAND →
      p.1 ∈ snapKeys h.restorationVector)
    (hrec : reconcile h = some (h', ops)) :
    (∀ k, keyedOps ops k
      = minimalEditDecision h.restorationVector h.refreshMap k)
    ∧ (∀ k, (keyedOps ops k).length ≤ 1) := by
  have hchar := reconcile_ops_characterization h h' ops hwf hnodupS hnodupM hrec
  constructor
  · intro k
    rw [hchar k, reconcileDecision_eq_minimal _ _ hdel k]
  · intro k
    rw [hchar k, reconcileDecision_eq_minimal _ _ hdel k]
    exact minimalEditDecision_length_le _ _ _

/-- Witness for `reconcile_minimal_edit_script` at the spec's Scenario D. -/
theorem reconcile_minimal_edit_script_witness :
    keyedOps [SinkOp.set "K2" [("g", "x")]] "K2"
      = minimalEditDecision hScenarioD.restorationVector
          hScenarioD.refreshMap "K2" :=
  (reconcile_minimal_edit_script hScenarioD
    ⟨WarmStartState.RECONCILED, true, [], []⟩ [SinkOp.set "K2" [("g", "x")]]
    (by decide) (by decide) (by decide) (by decide) (by decide)).1 "K2"

/-- C4 counterexample: for a DELETE refresh record whose key is not in the
restoration snapshot, the outcome is a `set`, not a `del` — the claimed
precedence fails for keys outside the snapshot. -/
theorem delete_precedence_fails_outside_snapshot :
    lookupKey hUnmatchedDel.refreshMap "K" = some kfvDelK
    ∧ kfvDelK.op = DEL_COMMAND
    ∧ reconcile hUnmatchedDel =
        some (⟨WarmStartState.RECONCILED, true, [], []⟩, [SinkOp.set "K" []])
    ∧ SinkOp.del "K" ∉ [SinkOp.set "K" []] := by decide

/-- C4 (amended): for every key K present in the restoration snapshot whose
refresh record has operation DELETE, a successful `reconcile` issues a
`del(K)` and never a `set` for K, regardless of field values. -/
theorem delete_precedence_within_snapshot (h h' : Helper) (ops : List SinkOp)
    (hwf : WFMap h.refreshMap)
    (hnodupS : (snapKeys h.restorationVector).Nodup)
    (hnodupM : (h.refreshMap.map (fun p => p.1)).Nodup)
    (hrec : reconcile h = some (h', ops))
    (K : String) (hK : K ∈ snapKeys h.restorationVector)
    (kfv : KeyOpFieldsValuesTuple)
    (hlook : lookupKey h.refreshMap K = some kfv)
    (hop : kfv.op = DEL_COMMAND) :
    SinkOp.del K ∈ ops ∧ ∀ fvs, SinkOp.set K fvs ∉ ops := by
  have hchar := reconcile_ops_characterization h h' ops hwf hnodupS hnodupM hrec K
  obtain ⟨r, hr⟩ : ∃ r, snapFind h.restorationVector K = some r := by
    cases hsf : snapFind h.restorationVector K with
    | none => exact absurd hK ((snapFind_eq_none_iff _ _).mp hsf)
    | some r => exact ⟨r, rfl⟩
  have hdec : reconcileDecision h.restorationVector h.refreshMap K
      = [SinkOp.del K] := by
    simp [reconcileDecision, hr, hlook, hop]
  rw [hdec] at hchar
  constructor
  · have hmem : SinkOp.del K ∈ keyedOps ops K := by
      rw [hchar]
      exact List.mem_singleton_self _
    exact mem_of_mem_keyedOps hmem
  · intro fvs hmem
    have hin : SinkOp.set K fvs ∈ keyedOps ops K :=
      mem_keyedOps_of_mem hmem rfl
    rw [hchar] at hin
    simp at hin

/-- Witness for `delete_precedence_within_snapshot`: a snapshot key with an
explicit DELETE refresh record receives exactly a `del`. -/
theorem delete_precedence_within_snapshot_witness :
    SinkOp.del "K" ∈ [SinkOp.del "K"]
    ∧ ∀ fvs, SinkOp.set "K" fvs ∉ [SinkOp.del "K"] :=
  delete_precedence_within_snapshot hSnapDel
    ⟨WarmStartState.RECONCILED, true, [], []⟩ [SinkOp.del "K"]
    (by decide) (by decide) (by decide) (by decide)
    "K" (by decide) kfvDelK (by decide) (by decide)

/-! ### Idempotence -/

/-- When every snapshot record has an unchanged non-DELETE refresh record and
the refresh map covers no other keys, the snapshot pass consumes the whole
map and emits nothing. -/
theorem reconcileAux_no_change :
    ∀ (snap : List KeyOpFieldsValuesTuple) (m : RefreshMap),
      (snapKeys snap).Nodup →
      (∀ p ∈ m, p.1 ∈ snapKeys snap) →
      (∀ r ∈ snap, ∃ kfv, lookupKey m r.key = some kfv ∧ kfv.op ≠ DEL_COMMAND
        ∧ compareAllFV r.fvs kfv.fvs = some false) →
      reconcileAux m snap = some ([], []) := by
  intro snap
  induction snap with
  | nil =>
    intro m _ hcov _
    have hm : m = [] := by
      cases m with
      | nil => rfl
      | cons p rest =>
        exact absurd (hcov p (List.mem_cons_self _ _)) (by simp [snapKeys])
    rw [hm]
    rfl
  | cons r rest ih =>
    intro m hnodup hcov hmatch
    rw [snapKeys_cons] at hnodup
    have hnr : r.key ∉ snapKeys rest := (List.nodup_cons.mp hnodup).1
    have hnrest := (List.nodup_cons.mp hnodup).2
    obtain ⟨kfv, hl, hop, hcmp⟩ := hmatch r (List.mem_cons_self _ _)
    have hstep : reconcileStep m r = some (eraseKey m r.key, []) := by
      simp [reconcileStep, hl, hop, hcmp]
    have haux : reconcileAux (eraseKey m r.key) rest = some ([], []) := by
      refine ih (eraseKey m r.key) hnrest ?_ ?_
      · intro p hp
        have hpm := List.mem_of_mem_filter hp
        have hkeys := hcov p hpm
        rw [snapKeys_cons] at hkeys
        rcases List.mem_cons.mp hkeys with hc | hc
        · have hpred := List.of_mem_filter hp
          simp at hpred
          exact absurd hc hpred
        · exact hc
      · intro r' hr'
        obtain ⟨kfv', hl', hop', hcmp'⟩ := hmatch r' (List.mem_cons_of_mem _ hr')
        refine ⟨kfv', ?_, hop', hcmp'⟩
        rw [lookupKey_eraseKey
          (fun hc => hnr (by rw [← hc]; exact List.mem_map_of_mem _ hr'))]
        exact hl'
    simp [reconcileAux, hstep, haux]

/-- C9: when the refresh map holds exactly one non-DELETE record per snapshot
key whose field-values compare unchanged under the comparator, `reconcile`
issues zero sink calls (and still clears both containers). -/
theorem reconcile_idempotent (h : Helper)
    (hst : h.state = WarmStartState.RESTORED)
    (hnodupS : (snapKeys h.restorationVector).Nodup)
    (hcover : ∀ p ∈ h.refreshMap, p.1 ∈ snapKeys h.restorationVector)
    (hmatch : ∀ r ∈ h.restorationVector, ∃ kfv,
      lookupKey h.refreshMap r.key = some kfv ∧ kfv.op = SET_COMMAND
      ∧ compareAllFV r.fvs kfv.fvs = some false) :
    reconcile h = some ({ h with state := WarmStartState.RECONCILED,
                                 refreshMap := [],
                                 restorationVector := [] }, []) := by
  have haux : reconcileAux h.refreshMap h.restorationVector = some ([], []) := by
    refine reconcileAux_no_change _ _ hnodupS hcover ?_
    intro r hr
    obtain ⟨kfv, h1, h2, h3⟩ := hmatch r hr
    exact ⟨kfv, h1, by rw [h2]; decide, h3⟩
  unfold reconcile reconcileBody
  rw [if_pos hst, haux]
  simp

/-- Witness for `reconcile_idempotent` at the spec's Scenario C (same token
multiset in different order). -/
theorem reconcile_idempotent_witness :
    reconcile hScenarioC = some (⟨WarmStartState.RECONCILED, true, [], []⟩, []) := by
  have hmatch : ∀ r ∈ hScenarioC.restorationVector, ∃ kfv,
      lookupKey hScenarioC.refreshMap r.key = some kfv ∧ kfv.op = SET_COMMAND
      ∧ compareAllFV r.fvs kfv.fvs = some false := by
    intro r hr
    have hrK : r = ⟨"K", "SET", [("f", "a,b")]⟩ := by
      simpa [hScenarioC, snapC] using hr
    subst hrK
    exact ⟨⟨"K", "SET", [("f", "b,a")]⟩, by decide, rfl, by decide⟩
  exact reconcile_idempotent hScenarioC rfl (by decide) (by decide) hmatch

/-! ### The reconcile pass matches its claimed description -/

/-- The source's snapshot pass equals the claim-shaped pass (which always
removes the processed key from the refresh map; the source skips the removal
when the key was absent, a no-op). -/
theorem reconcileAux_eq_snapshotPassC1 :
    ∀ (snap : List KeyOpFieldsValuesTuple) (m : RefreshMap),
      reconcileAux m snap = (snapshotPassC1 snap m).map (fun p => (p.2, p.1)) := by
  intro snap
  induction snap with
  | nil => intro m; rfl
  | cons r rest ih =>
    intro m
    cases hlook : lookupKey m r.key with
    | none =>
      have hdrop : eraseKey m r.key = m := eraseKey_of_lookup_none hlook
      simp only [reconcileAux, reconcileStep, snapshotPassC1, hlook, hdrop, ih m]
      cases snapshotPassC1 rest m with
      | none => rfl
      | some p =>
        cases p with
        | mk ops m' => rfl
    | some kfv =>
      by_cases hop : kfv.op = DEL_COMMAND
      · simp only [reconcileAux, reconcileStep, snapshotPassC1, hlook, if_pos hop,
          ih (eraseKey m r.key)]
        cases snapshotPassC1 rest (eraseKey m r.key) with
        | none => rfl
        | some p =>
          cases p with
          | mk ops m' => rfl
      · cases hcmp : compareAllFV r.fvs kfv.fvs with
        | none =>
          simp only [reconcileAux, reconcileStep, snapshotPassC1, hlook,
            if_neg hop, hcmp]
          rfl
        | some b =>
          cases b with
          | true =>
            simp only [reconcileAux, reconcileStep, snapshotPassC1, hlook,
              if_neg hop, hcmp, ih (eraseKey m r.key)]
            cases snapshotPassC1 rest (eraseKey m r.key) with
            | none => rfl
            | some p =>
              cases p with
              | mk ops m' => rfl
          | false =>
            simp only [reconcileAux, reconcileStep, snapshotPassC1, hlook,
              if_neg hop, hcmp, ih (eraseKey m r.key)]
            cases snapshotPassC1 rest (eraseKey m r.key) with
            | none => rfl
            | some p =>
              cases p with
              | mk ops m' => rfl

/-- C1: in state RESTORED, `reconcile` behaves exactly as the claim
describes it (`reconcileSpecC1`), and any successful `reconcile` empties the
refresh map and the snapshot and sets the state to RECONCILED. -/
theorem reconcile_matches_claimed_pass :
    (∀ h : Helper, h.state = WarmStartState.RESTORED →
      reconcile h = reconcileSpecC1 h)
    ∧ (∀ (h h' : Helper) (ops : List SinkOp), reconcile h = some (h', ops) →
        h'.refreshMap = [] ∧ h'.restorationVector = []
        ∧ h'.state = WarmStartState.RECONCILED) := by
  constructor
  · intro h hst
    unfold reconcile reconcileBody reconcileSpecC1
    rw [if_pos hst, reconcileAux_eq_snapshotPassC1]
    cases snapshotPassC1 h.restorationVector h.refreshMap with
    | none => rfl
    | some p =>
      cases p with
      | mk ops mRem => rfl
  · intro h h' ops hrec
    obtain ⟨-, h2, h3, h4⟩ := reconcile_some_fields hrec
    exact ⟨h3, h4, h2⟩

/-- Witness for `reconcile_matches_claimed_pass` at the spec's Scenario D. -/
theorem reconcile_matches_claimed_pass_witness :
    reconcile hScenarioD = reconcileSpecC1 hScenarioD :=
  reconcile_matches_claimed_pass.1 hScenarioD rfl

end WarmRestart
